import Mathlib

/- Verification of the gradient-descent / constrained Anderson acceleration
   solver in CAA/logreg.py (solver_logreg).

   The solver is embedded shallowly: floats are modelled as rationals, and
   the numeric library routines the solver calls (np.exp, the Euclidean
   vector norm, the spectral matrix norm and svds-based Lipschitz estimate,
   np.linalg.solve, the Frank-Wolfe routine FW imported from
   CAA.utils.FWsolver, whose sources are not in the repository snapshot,
   and wall-clock time) are abstracted as the fields of a Prims structure.
   The control flow and the arithmetic of solver_logreg itself are
   translated literally from the source; only the dense branch of the
   Lipschitz computation is modelled (the sparse branch computes the same
   quantity with svds instead of norm(X, ord=2)). -/

namespace CAA

set_option maxRecDepth 8000

abbrev Vec (j : ℕ) : Type := Fin j → ℚ

abbrev Mat (a b : ℕ) : Type := Fin a → Fin b → ℚ

/-- Matrix-vector product, X @ v. -/
def matVec {a b : ℕ} (M : Mat a b) (v : Vec b) : Vec a :=
  fun i => ∑ q : Fin b, M i q * v q

/-- Abstract numeric primitives consumed by solver_logreg.  The fields
model, in order: np.exp (elementwise), the Euclidean vector norm
np.linalg.norm, the spectral matrix norm norm(., ord=2), a real power
function (used for the exponent -0.49), np.linalg.solve returning none on
numpy.linalg.LinAlgError, the Frank-Wolfe solver FW from CAA.utils.FWsolver
returning (c, gap, border) or none on numpy.linalg.LinAlgError (modelled
from the spec, section 4.6: the file CAA/utils/FWsolver.py is not part of
the snapshot; only its call signature and failure mode are used here), and
the wall clock time.time() - start_time read at iteration it. -/
structure Prims : Type where
  exp : ℚ → ℚ
  nrm : {j : ℕ} → Vec j → ℚ
  nrm2 : {a b : ℕ} → Mat a b → ℚ
  rpow : ℚ → ℚ → ℚ
  lsolve : {j : ℕ} → Mat j j → Vec j → Option (Vec j)
  FW : {j : ℕ} → Mat j j → Vec j → ℚ → ℚ → ℕ → Option (Vec j × ℚ × Bool)
  elapsed : ℕ → ℚ

/-- The sigmoid helper defined at the top of logreg.py. -/
def sigmoid (pr : Prims) (x : ℚ) : ℚ := 1 / (1 + pr.exp (-x))

/-- The arguments of solver_logreg.  The number K of extrapolation points
is k + 1 (the source requires K at least 1: it writes c[0] and c[-1]). -/
structure Params (m n k : ℕ) : Type where
  X : Mat m n
  y : Vec m
  rho : ℚ
  maxIter : ℕ
  maxTime : ℚ
  tol : ℚ
  fGrad : ℕ
  useAcc : Bool
  C0 : Option ℚ
  adaptiveC : Bool
  regAmount : Option ℚ

/-- The mutable state of the solver loop: the weight vector w, the cached
prediction Xw, the cyclic buffer last_K_w of K+1 = k+2 iterates, the
extrapolation coefficients c, the boundary flag border, the retained
radius C_prev, the metric histories E and T, and a flag recording that a
break statement has ended the loop. -/
structure St (m n k : ℕ) : Type where
  w : Vec n
  Xw : Vec m
  lastKw : Fin n → Fin (k+2) → ℚ
  c : Vec (k+1)
  border : Bool
  Cprev : ℚ
  E : List ℚ
  T : List ℚ
  stopped : Bool

variable {m n k : ℕ}

/-- The step-size scalar computed at lines 87-90 of logreg.py:
L = norm(X, ord=2) ** 2 / 4 + rho (dense branch; the sparse branch
computes the same value via svds). -/
def Lval (P : Params m n k) (pr : Prims) : ℚ :=
  pr.nrm2 P.X ^ 2 / 4 + P.rho

/-- The gradient at line 104: -X.T @ (y / (1 + np.exp(y * Xw))) + rho * w,
computed from the cached prediction vector Xw. -/
def gradOf (P : Params m n k) (pr : Prims) (w : Vec n) (Xw : Vec m) : Vec n :=
  fun i => -(∑ r : Fin m, P.X r i * (P.y r / (1 + pr.exp (P.y r * Xw r)))) + P.rho * w i

/-- The plain gradient step at line 116: w - 1/L * grad_w. -/
def plainW (P : Params m n k) (pr : Prims) (w g : Vec n) : Vec n :=
  fun i => w i - 1 / Lval P pr * g i

/-- The cyclic buffer write at line 120: last_K_w[:, it % (K + 1)] = w. -/
def pushBuf (buf : Fin n → Fin (k+2) → ℚ) (it : ℕ) (wv : Vec n) :
    Fin n → Fin (k+2) → ℚ :=
  fun i q => if (q : ℕ) = it % (k+2) then wv i else buf i q

/-- The residual matrix of lines 123-124: R[:, q] = last_K_w[:, q+1] - last_K_w[:, q]. -/
def residOf (buf : Fin n → Fin (k+2) → ℚ) : Mat n (k+1) :=
  fun i q => buf i q.succ - buf i q.castSucc

/-- The raw Gram matrix RTR = R.T @ R of line 126. -/
def gramRaw (R : Mat n (k+1)) : Mat (k+1) (k+1) :=
  fun a b => ∑ r : Fin n, R r a * R r b

/-- Lines 126-128: the Gram matrix, Tikhonov-regularized when reg_amount is
configured: RTR + reg_amount * norm(RTR, ord=2) * eye(K). -/
def gramOf (P : Params m n k) (pr : Prims) (R : Mat n (k+1)) : Mat (k+1) (k+1) :=
  match P.regAmount with
  | none => gramRaw R
  | some reg =>
      fun a b => gramRaw R a b + reg * pr.nrm2 (gramRaw R) * (if a = b then 1 else 0)

/-- The vector written at lines 140-141 before the FW call:
c = np.zeros(K); c[-1] = 1. -/
def ctriv (k : ℕ) : Vec (k+1) := fun q => if q = Fin.last k then 1 else 0

/-- np.ones(K). -/
def onesV (k : ℕ) : Vec (k+1) := fun _ => 1

/-- The initial coefficient vector of lines 93-94: c = np.zeros(K); c[0] = -1. -/
def initC (k : ℕ) : Vec (k+1) := fun q => if (q : ℕ) = 0 then -1 else 0

/-- The candidate radius of lines 130-134: C = C0, then under adaptive_C,
C = C0 * (norm_grad / L) ** (-0.49) * it / K floored at C0 by max. -/
def candRadius (P : Params m n k) (pr : Prims) (c0 ng : ℚ) (it : ℕ) : ℚ :=
  if P.adaptiveC = true then
    max (c0 * pr.rpow (ng / Lval P pr) (-(49/100)) * (it : ℚ) / ((k : ℚ) + 1)) c0
  else c0

/-- Lines 129-153: the coefficient update of one mixing cycle, producing
the new (c, border, C_prev) from the previous ones.  In the constrained
branch the continuation rule runs first (if not border: C = C_prev else:
C_prev = C); c is set to the trivial vector and then the FW call either
replaces it or, on LinAlgError, leaves the trivial vector in place with
border unchanged.  In the unconstrained branch np.linalg.solve either
yields c = z / z.sum() or, on LinAlgError, retains the previous c. -/
def coeffStep (P : Params m n k) (pr : Prims) (it : ℕ) (ng : ℚ)
    (R : Mat n (k+1)) (G : Mat (k+1) (k+1))
    (prevC : Vec (k+1)) (bo : Bool) (cp : ℚ) : Vec (k+1) × Bool × ℚ :=
  match P.C0 with
  | some c0 =>
      match pr.FW G (ctriv k) (1 / 10 ^ 12 * pr.nrm (fun i => R i 0))
          (if bo then candRadius P pr c0 ng it else cp) 5000 with
      | some r => (r.1, r.2.2, if bo then candRadius P pr c0 ng it else cp)
      | none => (ctriv k, bo, if bo then candRadius P pr c0 ng it else cp)
  | none =>
      match pr.lsolve G (onesV k) with
      | some z => (fun q => z q / (∑ q2 : Fin (k+1), z q2), bo, cp)
      | none => (prevC, bo, cp)

/-- The coefficient update as invoked in the loop, from the gradient g and
the freshly pushed buffer. -/
def coeffOf (P : Params m n k) (pr : Prims) (it : ℕ) (g : Vec n)
    (buf : Fin n → Fin (k+2) → ℚ) (s : St m n k) : Vec (k+1) × Bool × ℚ :=
  coeffStep P pr it (pr.nrm g) (residOf buf) (gramOf P pr (residOf buf))
    s.c s.border s.Cprev

/-- Line 154: w_acc = last_K_w[:, :-1] @ c (all buffer columns except the
last one, which at a mixing event is the newest iterate). -/
def waccOf (buf : Fin n → Fin (k+2) → ℚ) (c : Vec (k+1)) : Vec n :=
  fun i => ∑ q : Fin (k+1), buf i q.castSucc * c q

/-- Lines 121-160: a mixing event.  norm_grad is recomputed from grad_w
(the gradient at the iterate the step started from); the candidate
w_acc is built from the coefficient-update result, and the safeguard
replaces (w, Xw) by (w_acc, X @ w_acc) iff norm_grad_acc < norm_grad. -/
def mixStep (P : Params m n k) (pr : Prims) (it : ℕ) (g : Vec n)
    (buf : Fin n → Fin (k+2) → ℚ) (wp : Vec n) (Xwp : Vec m)
    (s : St m n k) : St m n k :=
  if pr.nrm (gradOf P pr (waccOf buf (coeffOf P pr it g buf s).1)
        (matVec P.X (waccOf buf (coeffOf P pr it g buf s).1))) < pr.nrm g then
    { s with w := waccOf buf (coeffOf P pr it g buf s).1,
             Xw := matVec P.X (waccOf buf (coeffOf P pr it g buf s).1),
             lastKw := buf, c := (coeffOf P pr it g buf s).1,
             border := (coeffOf P pr it g buf s).2.1,
             Cprev := (coeffOf P pr it g buf s).2.2 }
  else
    { s with w := wp, Xw := Xwp, lastKw := buf,
             c := (coeffOf P pr it g buf s).1,
             border := (coeffOf P pr it g buf s).2.1,
             Cprev := (coeffOf P pr it g buf s).2.2 }

/-- Lines 116-160 after the logging block: the plain update of (w, Xw),
then under use_acc the buffer push and, every K+1 iterations, the mixing
event. -/
def stepCore (P : Params m n k) (pr : Prims) (it : ℕ) (g : Vec n)
    (s : St m n k) : St m n k :=
  if P.useAcc = true then
    if it % (k+2) = k+1 then
      mixStep P pr it g (pushBuf s.lastKw it (plainW P pr s.w g))
        (plainW P pr s.w g) (matVec P.X (plainW P pr s.w g)) s
    else
      { s with w := plainW P pr s.w g,
               Xw := matVec P.X (plainW P pr s.w g),
               lastKw := pushBuf s.lastKw it (plainW P pr s.w g) }
  else
    { s with w := plainW P pr s.w g, Xw := matVec P.X (plainW P pr s.w g) }

/-- Lines 104-160: one loop body after the wall-clock check.  Every f_grad
iterations the gradient norm and elapsed time are appended to E and T and
the loop breaks early when norm_grad < tol.  The appends are write-only
(E and T are never read back), so appending to the post-update state is
the same state the source produces by appending before the update. -/
def stepBody (P : Params m n k) (pr : Prims) (it : ℕ) (s : St m n k) : St m n k :=
  if it % P.fGrad = 0 then
    if pr.nrm (gradOf P pr s.w s.Xw) < P.tol then
      { s with E := s.E ++ [pr.nrm (gradOf P pr s.w s.Xw)],
               T := s.T ++ [pr.elapsed it], stopped := true }
    else
      { stepCore P pr it (gradOf P pr s.w s.Xw) s with
          E := (stepCore P pr it (gradOf P pr s.w s.Xw) s).E
                ++ [pr.nrm (gradOf P pr s.w s.Xw)],
          T := (stepCore P pr it (gradOf P pr s.w s.Xw) s).T ++ [pr.elapsed it] }
  else stepCore P pr it (gradOf P pr s.w s.Xw) s

/-- Lines 101-103 around the body: a loop iteration is the identity once a
break has happened, sets the break flag when the wall-clock budget is
exceeded, and otherwise runs the body. -/
def step (P : Params m n k) (pr : Prims) (it : ℕ) (s : St m n k) : St m n k :=
  if s.stopped = true then s
  else if P.maxTime < pr.elapsed it then { s with stopped := true }
  else stepBody P pr it s

/-- Lines 92-100: the initial state (w = 0, Xw = 0, zero buffer, c the
initial vector with c[0] = -1, border = True, C_prev = C0). -/
def initState (P : Params m n k) : St m n k :=
  { w := fun _ => 0, Xw := fun _ => 0, lastKw := fun _ _ => 0,
    c := initC k, border := true, Cprev := P.C0.getD 0,
    E := [], T := [], stopped := false }

/-- The state after N loop iterations. -/
def runTrace (P : Params m n k) (pr : Prims) : ℕ → St m n k
  | 0 => initState P
  | N + 1 => step P pr N (runTrace P pr N)

/-- solver_logreg: the returned triple (w, E, T) after max_iter iterations. -/
def solver_logreg (P : Params m n k) (pr : Prims) : Vec n × List ℚ × List ℚ :=
  ((runTrace P pr P.maxIter).w, (runTrace P pr P.maxIter).E,
   (runTrace P pr P.maxIter).T)

/-- The gradient computed at the start of iteration it (line 104). -/
def preGrad (P : Params m n k) (pr : Prims) (it : ℕ) : Vec n :=
  gradOf P pr (runTrace P pr it).w (runTrace P pr it).Xw

/-- The plain gradient-descent iterate produced at iteration it (line 116). -/
def plainAt (P : Params m n k) (pr : Prims) (it : ℕ) : Vec n :=
  plainW P pr (runTrace P pr it).w (preGrad P pr it)

/-- The buffer contents right after the push of iteration it (line 120). -/
def bufAt (P : Params m n k) (pr : Prims) (it : ℕ) : Fin n → Fin (k+2) → ℚ :=
  pushBuf (runTrace P pr it).lastKw it (plainAt P pr it)

/-- The residual matrix built at the mixing event of iteration it. -/
def residAt (P : Params m n k) (pr : Prims) (it : ℕ) : Mat n (k+1) :=
  residOf (bufAt P pr it)

/-- The (possibly regularized) Gram matrix built at the mixing event of
iteration it; it is handed to both the constrained and the unconstrained
coefficient solve. -/
def gramAt (P : Params m n k) (pr : Prims) (it : ℕ) : Mat (k+1) (k+1) :=
  gramOf P pr (residAt P pr it)

/-- The coefficient-update result of the mixing event of iteration it. -/
def coeffAt (P : Params m n k) (pr : Prims) (it : ℕ) : Vec (k+1) × Bool × ℚ :=
  coeffOf P pr it (preGrad P pr it) (bufAt P pr it) (runTrace P pr it)

/-- The candidate mixed iterate of the mixing event of iteration it. -/
def waccAt (P : Params m n k) (pr : Prims) (it : ℕ) : Vec n :=
  waccOf (bufAt P pr it) (coeffAt P pr it).1

/-- The l1 radius handed to the FW call at the mixing event of iteration
it: the fresh candidate when the previous solve ended on the boundary,
else the retained C_prev. -/
def radiusAt (P : Params m n k) (pr : Prims) (it : ℕ) : ℚ :=
  match P.C0 with
  | some c0 =>
      if (runTrace P pr it).border then
        candRadius P pr c0 (pr.nrm (preGrad P pr it)) it
      else (runTrace P pr it).Cprev
  | none => 0

/-- The FW invocation of line 142 at the mixing event of iteration it. -/
def fwCallAt (P : Params m n k) (pr : Prims) (it : ℕ) :
    Option (Vec (k+1) × ℚ × Bool) :=
  pr.FW (gramAt P pr it) (ctriv k)
    (1 / 10 ^ 12 * pr.nrm (fun i => residAt P pr it i 0))
    (radiusAt P pr it) 5000

/-- The np.linalg.solve invocation of line 149 at the mixing event of
iteration it. -/
def lsCallAt (P : Params m n k) (pr : Prims) (it : ℕ) : Option (Vec (k+1)) :=
  pr.lsolve (gramAt P pr it) (onesV k)

/-- Iteration it runs its full body: the loop has not broken before it,
the wall-clock budget is not exceeded, and the early-exit branch
(norm_grad < tol on a logging iteration) is not taken. -/
def fullIter (P : Params m n k) (pr : Prims) (it : ℕ) : Prop :=
  (runTrace P pr it).stopped = false ∧
  ¬ P.maxTime < pr.elapsed it ∧
  ¬ (it % P.fGrad = 0 ∧ pr.nrm (preGrad P pr it) < P.tol)

instance (P : Params m n k) (pr : Prims) (it : ℕ) :
    Decidable (fullIter P pr it) := by
  unfold fullIter; infer_instance

/-- Modelled from the spec (section 4.8): the candidate mixed iterate read
as the spec words it, built from the buffered iterates excluding the
OLDEST slot.  It is compared against waccOf, which follows the source and
excludes the newest slot. -/
def waccSpec (buf : Fin n → Fin (k+2) → ℚ) (c : Vec (k+1)) : Vec n :=
  fun i => ∑ q : Fin (k+1), buf i q.succ * c q

/- Concrete instances for witnesses and counterexamples.  One sample, one
feature, X = [[2]], y = [1], rho = 0, hence L = 1 and the gradient at w is
-2 / (1 + exp(2 w)).  The primitives are rational stand-ins for the numpy
routines: a Taylor polynomial for exp, the absolute-entry sums for the
norms (equal to the Euclidean and spectral norms on the one-dimensional
vectors and the 1 x 1 matrices they are applied to in these runs). -/

/-- The base primitives: exp as a second-order Taylor polynomial, norms as
absolute-entry sums, and both coefficient solvers failing with
LinAlgError (the Gram matrices arising in the runs below are exactly
singular). -/
def prBase : Prims where
  exp := fun t => 1 + t + t ^ 2 / 2
  nrm := fun {j} v => ∑ i : Fin j, |v i|
  nrm2 := fun {a b} M => ∑ i : Fin a, ∑ q : Fin b, |M i q|
  rpow := fun _ _ => 2
  lsolve := fun {j} _ _ => none
  FW := fun {j} _ _ _ _ _ => none
  elapsed := fun _ => 0

/-- Primitives whose FW solver returns the feasible coefficient vector
(-27/74, 101/74) (sum 1, l1 distance 27/37 from the trivial vertex) with
border = true. -/
def prFw : Prims :=
  { prBase with
    FW := fun {j} _ _ _ _ _ =>
      some (fun q => if (q : ℕ) = 0 then -27/74 else 101/74, 0, true) }

/-- Primitives whose linear solver returns the constant vector 9 (the
exact solution of G z = 1 for the 1 x 1 Gram matrix G = [[1/9]]). -/
def prLs : Prims :=
  { prBase with lsolve := fun {j} _ _ => some (fun _ => 9) }

/-- Primitives whose FW solver echoes the top-left entry of the Gram
matrix it receives into the first coefficient. -/
def prEcho : Prims :=
  { prBase with
    FW := fun {j} G _ _ _ _ =>
      if h : 0 < j then
        some (fun q => if (q : ℕ) = 0 then G ⟨0, h⟩ ⟨0, h⟩ else 0, 0, true)
      else none }

/-- The concrete design matrix [[2]]. -/
def Xc : Mat 1 1 := fun _ _ => 2

/-- The concrete label vector [1]. -/
def yc : Vec 1 := fun _ => 1

/-- Base run: K = 2 (k = 1), three iterations, plain unconstrained
acceleration, tol = 0 so the early exit never fires. -/
def Pbase : Params 1 1 1 :=
  { X := Xc, y := yc, rho := 0, maxIter := 3, maxTime := 100, tol := 0,
    fGrad := 10, useAcc := true, C0 := none, adaptiveC := false,
    regAmount := none }

/-- The base run with the radius bound C0 = 10 configured. -/
def Pc0 : Params 1 1 1 := { Pbase with C0 := some 10 }

/-- The constrained run with the adaptive radius schedule enabled. -/
def Pad : Params 1 1 1 := { Pbase with C0 := some 10, adaptiveC := true }

/-- The base run with the design matrix replaced by [[4]] and everything
else unchanged. -/
def Pb4 : Params 1 1 1 := { Pbase with X := fun _ _ => 4 }

/-- A K = 1 run (k = 0): two iterations, mixing event at iteration 1 with
the nonsingular 1 x 1 Gram matrix [[1/9]]. -/
def Pone : Params 1 1 0 :=
  { X := Xc, y := yc, rho := 0, maxIter := 2, maxTime := 100, tol := 0,
    fGrad := 10, useAcc := true, C0 := none, adaptiveC := false,
    regAmount := none }

/-- A K = 1 constrained run with Tikhonov regularization amount 1: at the
mixing event of iteration 1 the raw Gram matrix is [[1/9]] and the
regularized one is [[1/9 + 1 * (1/9)]] = [[2/9]]. -/
def Prg : Params 1 1 0 := { Pone with C0 := some 10, regAmount := some 1 }

/-- The loop-carried fields of the state (everything except the metric
histories and the break flag). -/
def coreFields (s : St m n k) :
    Vec n × Vec m × (Fin n → Fin (k+2) → ℚ) × Vec (k+1) × Bool × ℚ :=
  (s.w, s.Xw, s.lastKw, s.c, s.border, s.Cprev)

theorem run_full_fields (P : Params m n k) (pr : Prims) (it : ℕ)
    (hf : fullIter P pr it) :
    coreFields (runTrace P pr (it+1))
      = coreFields (stepCore P pr it (preGrad P pr it) (runTrace P pr it)) := by
  obtain ⟨h1, h2, h3⟩ := hf
  show coreFields (step P pr it (runTrace P pr it)) = _
  unfold step
  rw [if_neg (by rw [h1]; simp), if_neg h2]
  unfold stepBody
  by_cases hl : it % P.fGrad = 0
  · rw [if_pos hl, if_neg (show ¬ pr.nrm (gradOf P pr (runTrace P pr it).w
        (runTrace P pr it).Xw) < P.tol from fun hlt => h3 ⟨hl, hlt⟩)]
    rfl
  · rw [if_neg hl]
    rfl

theorem stepCore_mix (P : Params m n k) (pr : Prims) (it : ℕ) (g : Vec n)
    (s : St m n k) (ha : P.useAcc = true) (hm : it % (k+2) = k+1) :
    stepCore P pr it g s
      = mixStep P pr it g (pushBuf s.lastKw it (plainW P pr s.w g))
          (plainW P pr s.w g) (matVec P.X (plainW P pr s.w g)) s := by
  unfold stepCore
  rw [if_pos ha, if_pos hm]

theorem mixStep_fields (P : Params m n k) (pr : Prims) (it : ℕ) (g : Vec n)
    (buf : Fin n → Fin (k+2) → ℚ) (wp : Vec n) (Xwp : Vec m) (s : St m n k) :
    coreFields (mixStep P pr it g buf wp Xwp s)
      = (if pr.nrm (gradOf P pr (waccOf buf (coeffOf P pr it g buf s).1)
              (matVec P.X (waccOf buf (coeffOf P pr it g buf s).1))) < pr.nrm g
         then waccOf buf (coeffOf P pr it g buf s).1 else wp,
         if pr.nrm (gradOf P pr (waccOf buf (coeffOf P pr it g buf s).1)
              (matVec P.X (waccOf buf (coeffOf P pr it g buf s).1))) < pr.nrm g
         then matVec P.X (waccOf buf (coeffOf P pr it g buf s).1) else Xwp,
         buf, (coeffOf P pr it g buf s).1, (coeffOf P pr it g buf s).2.1,
         (coeffOf P pr it g buf s).2.2) := by
  unfold mixStep
  by_cases h : pr.nrm (gradOf P pr (waccOf buf (coeffOf P pr it g buf s).1)
      (matVec P.X (waccOf buf (coeffOf P pr it g buf s).1))) < pr.nrm g
  · rw [if_pos h, if_pos h, if_pos h]
    rfl
  · rw [if_neg h, if_neg h, if_neg h]
    rfl

theorem run_mix_w (P : Params m n k) (pr : Prims) (it : ℕ)
    (hf : fullIter P pr it) (ha : P.useAcc = true) (hm : it % (k+2) = k+1) :
    (runTrace P pr (it+1)).w
      = if pr.nrm (gradOf P pr (waccAt P pr it) (matVec P.X (waccAt P pr it)))
            < pr.nrm (preGrad P pr it)
        then waccAt P pr it else plainAt P pr it := by
  have h := run_full_fields P pr it hf
  rw [stepCore_mix P pr it _ _ ha hm, mixStep_fields] at h
  exact congrArg Prod.fst h

theorem run_mix_c (P : Params m n k) (pr : Prims) (it : ℕ)
    (hf : fullIter P pr it) (ha : P.useAcc = true) (hm : it % (k+2) = k+1) :
    (runTrace P pr (it+1)).c = (coeffAt P pr it).1 := by
  have h := run_full_fields P pr it hf
  rw [stepCore_mix P pr it _ _ ha hm, mixStep_fields] at h
  exact congrArg (fun x => x.2.2.2.1) h

theorem run_mix_border (P : Params m n k) (pr : Prims) (it : ℕ)
    (hf : fullIter P pr it) (ha : P.useAcc = true) (hm : it % (k+2) = k+1) :
    (runTrace P pr (it+1)).border = (coeffAt P pr it).2.1 := by
  have h := run_full_fields P pr it hf
  rw [stepCore_mix P pr it _ _ ha hm, mixStep_fields] at h
  exact congrArg (fun x => x.2.2.2.2.1) h

theorem run_mix_Cprev (P : Params m n k) (pr : Prims) (it : ℕ)
    (hf : fullIter P pr it) (ha : P.useAcc = true) (hm : it % (k+2) = k+1) :
    (runTrace P pr (it+1)).Cprev = (coeffAt P pr it).2.2 := by
  have h := run_full_fields P pr it hf
  rw [stepCore_mix P pr it _ _ ha hm, mixStep_fields] at h
  exact congrArg (fun x => x.2.2.2.2.2) h

theorem run_buf (P : Params m n k) (pr : Prims) (it : ℕ)
    (hf : fullIter P pr it) (ha : P.useAcc = true) :
    (runTrace P pr (it+1)).lastKw = bufAt P pr it := by
  have h := run_full_fields P pr it hf
  by_cases hm : it % (k+2) = k+1
  · rw [stepCore_mix P pr it _ _ ha hm, mixStep_fields] at h
    exact congrArg (fun x => x.2.2.1) h
  · unfold stepCore at h
    rw [if_pos ha, if_neg hm] at h
    exact congrArg (fun x => x.2.2.1) h

theorem buf_hist (P : Params m n k) (pr : Prims) (j : ℕ) : ∀ N, j < N →
    N ≤ j + (k+2) → (∀ l, l < N → fullIter P pr l) → P.useAcc = true →
    ∀ (i : Fin n) (hq : j % (k+2) < k+2),
      (runTrace P pr N).lastKw i ⟨j % (k+2), hq⟩ = plainAt P pr j i := by
  intro N
  induction N with
  | zero => omega
  | succ N ih =>
      intro hjN hNle hfull ha i hq
      rcases Nat.lt_succ_iff_lt_or_eq.mp hjN with hlt | heq
      · rw [run_buf P pr N (hfull N (Nat.lt_succ_self N)) ha]
        unfold bufAt pushBuf
        have hne : j % (k+2) ≠ N % (k+2) := by
          intro hcon
          have hdvd : (k+2) ∣ N - j := (Nat.modEq_iff_dvd' hlt.le).mp hcon
          have hge : k+2 ≤ N - j := Nat.le_of_dvd (by omega) hdvd
          omega
        simp only [hne, if_false]
        exact ih hlt (by omega) (fun l hl => hfull l (hl.trans (Nat.lt_succ_self N))) ha i hq
      · subst heq
        rw [run_buf P pr j (hfull j (Nat.lt_succ_self j)) ha]
        unfold bufAt pushBuf
        simp

theorem snapshot_slots (P : Params m n k) (pr : Prims) (it : ℕ)
    (h : ∀ l, l ≤ it → fullIter P pr l) (ha : P.useAcc = true)
    (hm : it % (k+2) = k+1) :
    ∀ (q : Fin (k+2)) (i : Fin n),
      (runTrace P pr (it+1)).lastKw i q = plainAt P pr (it - (k+1) + q) i := by
  intro q i
  have hit : k+1 ≤ it := by
    have := Nat.mod_le it (k+2)
    omega
  have hdm := Nat.div_add_mod it (k+2)
  set d := it / (k+2) with hd
  have hitdq : it - (k+1) + (q : ℕ) = (k+2) * d + q := by omega
  have hmod : (it - (k+1) + (q : ℕ)) % (k+2) = (q : ℕ) := by
    rw [hitdq, Nat.mul_add_mod]
    exact Nat.mod_eq_of_lt q.isLt
  have hq2 : (it - (k+1) + (q : ℕ)) % (k+2) < k+2 := by
    rw [hmod]; exact q.isLt
  have hb := buf_hist P pr (it - (k+1) + (q : ℕ)) (it+1) (by omega) (by omega)
    (fun l hl => h l (by omega)) ha i hq2
  have hfq : (⟨(it - (k+1) + (q : ℕ)) % (k+2), hq2⟩ : Fin (k+2)) = q := by
    apply Fin.ext
    exact hmod
  rw [hfq] at hb
  exact hb

theorem stepCore_cache (P : Params m n k) (pr : Prims) (it : ℕ) (g : Vec n)
    (s : St m n k) :
    (stepCore P pr it g s).Xw = matVec P.X (stepCore P pr it g s).w := by
  unfold stepCore
  by_cases ha : P.useAcc = true
  · rw [if_pos ha]
    by_cases hm : it % (k+2) = k+1
    · rw [if_pos hm]
      unfold mixStep
      by_cases hacc : pr.nrm (gradOf P pr
          (waccOf (pushBuf s.lastKw it (plainW P pr s.w g))
            (coeffOf P pr it g (pushBuf s.lastKw it (plainW P pr s.w g)) s).1)
          (matVec P.X (waccOf (pushBuf s.lastKw it (plainW P pr s.w g))
            (coeffOf P pr it g (pushBuf s.lastKw it (plainW P pr s.w g)) s).1)))
          < pr.nrm g
      · rw [if_pos hacc]
      · rw [if_neg hacc]
    · rw [if_neg hm]
  · rw [if_neg ha]

theorem coeffAt_some (P : Params m n k) (pr : Prims) (it : ℕ) (c0 : ℚ)
    (hC : P.C0 = some c0) :
    coeffAt P pr it
      = (match fwCallAt P pr it with
         | some r => (r.1, r.2.2, radiusAt P pr it)
         | none => (ctriv k, (runTrace P pr it).border, radiusAt P pr it)) := by
  unfold coeffAt coeffOf coeffStep fwCallAt radiusAt gramAt residAt
  rw [hC]

theorem coeffAt_none (P : Params m n k) (pr : Prims) (it : ℕ)
    (hC : P.C0 = none) :
    coeffAt P pr it
      = (match lsCallAt P pr it with
         | some z => (fun q => z q / (∑ q2 : Fin (k+1), z q2),
                      (runTrace P pr it).border, (runTrace P pr it).Cprev)
         | none => ((runTrace P pr it).c, (runTrace P pr it).border,
                    (runTrace P pr it).Cprev)) := by
  unfold coeffAt coeffOf coeffStep lsCallAt gramAt residAt
  rw [hC]

/-- Claim C1, amended.  At every mixing cycle the mixed iterate is accepted
(replacing w and its cached prediction) iff its gradient norm is strictly
smaller than the gradient norm at the iterate the step STARTED from (the
pre-step gradient, lines 104 and 122), not the plain post-step iterate;
consequently the driver continues with either the plain iterate itself or
an iterate whose gradient norm is strictly below that pre-step gradient
norm. -/
theorem C1_safeguard (P : Params m n k) (pr : Prims) (it : ℕ)
    (hit : it < P.maxIter) (hf : fullIter P pr it) (ha : P.useAcc = true)
    (hm : it % (k+2) = k+1) :
    (runTrace P pr (it+1)).w
      = (if pr.nrm (gradOf P pr (waccAt P pr it) (matVec P.X (waccAt P pr it)))
            < pr.nrm (preGrad P pr it)
         then waccAt P pr it else plainAt P pr it)
  ∧ ((runTrace P pr (it+1)).w = plainAt P pr it
     ∨ pr.nrm (gradOf P pr ((runTrace P pr (it+1)).w)
          (matVec P.X ((runTrace P pr (it+1)).w))) < pr.nrm (preGrad P pr it)) := by
  have hw := run_mix_w P pr it hf ha hm
  refine ⟨hw, ?_⟩
  by_cases hacc : pr.nrm (gradOf P pr (waccAt P pr it)
      (matVec P.X (waccAt P pr it))) < pr.nrm (preGrad P pr it)
  · right
    rw [hw, if_pos hacc]
    exact hacc
  · left
    rw [hw, if_neg hacc]

/-- Claim C1, witness for the amended theorem at the concrete constrained
run, mixing event at iteration 2. -/
theorem C1_safeguard_w :
    (runTrace Pc0 prFw 3).w
      = (if prFw.nrm (gradOf Pc0 prFw (waccAt Pc0 prFw 2)
             (matVec Pc0.X (waccAt Pc0 prFw 2))) < prFw.nrm (preGrad Pc0 prFw 2)
         then waccAt Pc0 prFw 2 else plainAt Pc0 prFw 2)
  ∧ ((runTrace Pc0 prFw 3).w = plainAt Pc0 prFw 2
     ∨ prFw.nrm (gradOf Pc0 prFw ((runTrace Pc0 prFw 3).w)
          (matVec Pc0.X ((runTrace Pc0 prFw 3).w))) < prFw.nrm (preGrad Pc0 prFw 2)) :=
  C1_safeguard Pc0 prFw 2 (by with_unfolding_all decide) (by with_unfolding_all decide) (by with_unfolding_all decide) (by with_unfolding_all decide)

/-- Claim C1 as stated is false on the code: in the concrete constrained
run the mixed iterate is accepted (the run continues with an iterate that
is not the plain one) although its gradient norm is strictly LARGER than
the plain post-step gradient-descent iterate norm, because the source
compares against the pre-step gradient norm instead. -/
theorem C1_cex :
    (runTrace Pc0 prFw 3).w ≠ plainAt Pc0 prFw 2
  ∧ prFw.nrm (gradOf Pc0 prFw (plainAt Pc0 prFw 2)
        (matVec Pc0.X (plainAt Pc0 prFw 2)))
      < prFw.nrm (gradOf Pc0 prFw ((runTrace Pc0 prFw 3).w)
          (matVec Pc0.X ((runTrace Pc0 prFw 3).w))) := by
  with_unfolding_all decide

/-- Claim C2, amended.  When the coefficient solve fails with a
linear-algebra error: in the unconstrained branch the previous coefficient
vector is retained; in the constrained branch the coefficient vector is
the trivial one-hot vector (written at lines 140-141 just before the
failing FW call), so the previous vector is NOT retained there.  In both
cases the mixing attempt still proceeds: the candidate is built from that
coefficient vector and the safeguard still decides acceptance. -/
theorem C2_failure (P : Params m n k) (pr : Prims) (it : ℕ)
    (hit : it < P.maxIter) (hf : fullIter P pr it) (ha : P.useAcc = true)
    (hm : it % (k+2) = k+1) :
    (P.C0 = none → lsCallAt P pr it = none →
       (runTrace P pr (it+1)).c = (runTrace P pr it).c)
  ∧ (∀ c0, P.C0 = some c0 → fwCallAt P pr it = none →
       (runTrace P pr (it+1)).c = ctriv k)
  ∧ ((runTrace P pr (it+1)).w = plainAt P pr it
     ∨ (runTrace P pr (it+1)).w = waccAt P pr it) := by
  have hc := run_mix_c P pr it hf ha hm
  have hw := run_mix_w P pr it hf ha hm
  refine ⟨?_, ?_, ?_⟩
  · intro hC hls
    rw [hc, coeffAt_none P pr it hC, hls]
  · intro c0 hC hfw
    rw [hc, coeffAt_some P pr it c0 hC, hfw]
  · by_cases hacc : pr.nrm (gradOf P pr (waccAt P pr it)
        (matVec P.X (waccAt P pr it))) < pr.nrm (preGrad P pr it)
    · right
      rw [hw, if_pos hacc]
    · left
      rw [hw, if_neg hacc]

/-- Claim C2, witness for the amended theorem at the concrete constrained
run whose FW call fails. -/
theorem C2_failure_w :
    (Pc0.C0 = none → lsCallAt Pc0 prBase 2 = none →
       (runTrace Pc0 prBase 3).c = (runTrace Pc0 prBase 2).c)
  ∧ (∀ c0, Pc0.C0 = some c0 → fwCallAt Pc0 prBase 2 = none →
       (runTrace Pc0 prBase 3).c = ctriv 1)
  ∧ ((runTrace Pc0 prBase 3).w = plainAt Pc0 prBase 2
     ∨ (runTrace Pc0 prBase 3).w = waccAt Pc0 prBase 2) :=
  C2_failure Pc0 prBase 2 (by with_unfolding_all decide) (by with_unfolding_all decide) (by with_unfolding_all decide) (by with_unfolding_all decide)

/-- Claim C2 as stated is false on the code: at the concrete constrained
run the FW call of the mixing cycle at iteration 2 fails, yet the
coefficient vector after the cycle is the trivial one-hot vector and not
the previous coefficient vector, which is not retained. -/
theorem C2_cex :
    fwCallAt Pc0 prBase 2 = none
  ∧ (runTrace Pc0 prBase 3).c = ctriv 1
  ∧ (runTrace Pc0 prBase 2).c = initC 1
  ∧ (runTrace Pc0 prBase 3).c ≠ (runTrace Pc0 prBase 2).c := by
  with_unfolding_all decide

/-- Claim C3, amended.  At every mixing event the candidate mixed iterate
is the combination, with coefficients c, of the K+1 buffered iterates
EXCLUDING THE NEWEST slot (the iterate pushed at the event itself, the
last buffer column), i.e. of the pushes at iterations it-K .. it-1; and
the trivial initial vector of the constrained solve puts weight 1 on the
newest INCLUDED point, the iterate pushed at iteration it-1 (the
second-newest buffered point), and 0 elsewhere. -/
theorem C3_candidate (P : Params m n k) (pr : Prims) (it : ℕ)
    (hit : it < P.maxIter) (h : ∀ l, l ≤ it → fullIter P pr l)
    (ha : P.useAcc = true) (hm : it % (k+2) = k+1) :
    (∀ i : Fin n, waccAt P pr it i
       = ∑ q : Fin (k+1), plainAt P pr (it - (k+1) + (q : ℕ)) i * (coeffAt P pr it).1 q)
  ∧ (∀ i : Fin n, waccOf (bufAt P pr it) (ctriv k) i = plainAt P pr (it - 1) i)
  ∧ ((runTrace P pr (it+1)).w = plainAt P pr it
     ∨ (runTrace P pr (it+1)).w = waccAt P pr it) := by
  have hb : bufAt P pr it = (runTrace P pr (it+1)).lastKw :=
    (run_buf P pr it (h it le_rfl) ha).symm
  have hs := snapshot_slots P pr it h ha hm
  have hit2 : k+1 ≤ it := by
    have := Nat.mod_le it (k+2)
    omega
  refine ⟨?_, ?_, ?_⟩
  · intro i
    unfold waccAt waccOf
    apply Finset.sum_congr rfl
    intro q _
    rw [hb, hs q.castSucc i]
    simp [Fin.coe_castSucc]
  · intro i
    unfold waccOf
    have hterm : ∀ q : Fin (k+1),
        bufAt P pr it i q.castSucc * ctriv k q
          = if q = Fin.last k then bufAt P pr it i q.castSucc else 0 := by
      intro q
      unfold ctriv
      split <;> ring
    rw [Finset.sum_congr rfl (fun q _ => hterm q),
        Finset.sum_ite_eq' Finset.univ (Fin.last k)
          (fun q => bufAt P pr it i q.castSucc),
        if_pos (Finset.mem_univ _), hb, hs (Fin.last k).castSucc i]
    have harg : it - (k+1) + (((Fin.last k).castSucc : Fin (k+2)) : ℕ) = it - 1 := by
      simp only [Fin.coe_castSucc, Fin.val_last]
      omega
    rw [harg]
  · have hw := run_mix_w P pr it (h it le_rfl) ha hm
    by_cases hacc : pr.nrm (gradOf P pr (waccAt P pr it)
        (matVec P.X (waccAt P pr it))) < pr.nrm (preGrad P pr it)
    · right
      rw [hw, if_pos hacc]
    · left
      rw [hw, if_neg hacc]

/-- Claim C3, witness for the amended theorem: the trivial start vector
selects the iterate pushed at iteration 1 in the concrete run. -/
theorem C3_candidate_w :
    waccOf (bufAt Pc0 prFw 2) (ctriv 1) 0 = plainAt Pc0 prFw 1 0 :=
  (C3_candidate Pc0 prFw 2 (by with_unfolding_all decide)
    (by with_unfolding_all decide) (by with_unfolding_all decide)
    (by with_unfolding_all decide)).2.1 0

/-- Claim C3 as stated is false on the code: in the concrete run the
accepted candidate equals the source combination (buffer columns excluding
the NEWEST slot) and differs from the spec reading (excluding the oldest
slot); moreover the trivial start vector selects the second-newest
buffered point, not the newest buffered point. -/
theorem C3_cex :
    (runTrace Pc0 prFw 3).w = waccOf (bufAt Pc0 prFw 2) (coeffAt Pc0 prFw 2).1
  ∧ waccOf (bufAt Pc0 prFw 2) (coeffAt Pc0 prFw 2).1
      ≠ waccSpec (bufAt Pc0 prFw 2) (coeffAt Pc0 prFw 2).1
  ∧ waccOf (bufAt Pc0 prFw 2) (ctriv 1) = plainAt Pc0 prFw 1
  ∧ waccOf (bufAt Pc0 prFw 2) (ctriv 1)
      ≠ (fun i => bufAt Pc0 prFw 2 i (Fin.last 2)) := by
  with_unfolding_all decide

/-- Claim C4, amended.  At a completed mixing cycle the coefficient vector
used for the candidate sums to exactly 1 provided that: a successful
unconstrained solve returns z with nonzero sum, a successful constrained
solve returns a vector of sum 1, and on an unconstrained failure the
retained previous vector already sums to 1.  Without the last proviso the
claim is false: an unconstrained failure before any success retains the
initial vector c of lines 93-94, whose sum is -1. -/
theorem C4_sum_c (P : Params m n k) (pr : Prims) (it : ℕ)
    (hit : it < P.maxIter) (hf : fullIter P pr it) (ha : P.useAcc = true)
    (hm : it % (k+2) = k+1)
    (hprev : P.C0 = none → lsCallAt P pr it = none →
       ∑ q : Fin (k+1), (runTrace P pr it).c q = 1)
    (hz : ∀ z : Vec (k+1), lsCallAt P pr it = some z →
       (∑ q : Fin (k+1), z q) ≠ 0)
    (hfw : ∀ r : Vec (k+1) × ℚ × Bool, fwCallAt P pr it = some r →
       ∑ q : Fin (k+1), r.1 q = 1) :
    ∑ q : Fin (k+1), (runTrace P pr (it+1)).c q = 1 := by
  rw [run_mix_c P pr it hf ha hm]
  cases hC : P.C0 with
  | some c0 =>
      rw [coeffAt_some P pr it c0 hC]
      cases hFW : fwCallAt P pr it with
      | some r =>
          exact hfw r hFW
      | none =>
          show ∑ q : Fin (k+1), ctriv k q = 1
          unfold ctriv
          rw [Finset.sum_ite_eq' Finset.univ (Fin.last k) (fun _ => (1:ℚ)),
              if_pos (Finset.mem_univ _)]
  | none =>
      rw [coeffAt_none P pr it hC]
      cases hLS : lsCallAt P pr it with
      | some z =>
          show ∑ q : Fin (k+1), z q / (∑ q2 : Fin (k+1), z q2) = 1
          rw [← Finset.sum_div]
          exact div_self (hz z hLS)
      | none =>
          exact hprev hC hLS

/-- Claim C4, witness for the amended theorem at the K = 1 run with a
successful unconstrained solve. -/
theorem C4_sum_c_w :
    ∑ q : Fin 1, (runTrace Pone prLs 2).c q = 1 :=
  C4_sum_c Pone prLs 1 (by with_unfolding_all decide) (by with_unfolding_all decide) (by with_unfolding_all decide) (by with_unfolding_all decide)
    (fun _ hls => absurd hls (by with_unfolding_all decide))
    (fun z hz2 => by rw [← Option.some.inj hz2]; with_unfolding_all decide)
    (fun r hr => Option.noConfusion hr)

/-- Claim C4 as stated is false on the code: in the concrete unconstrained
run the solve of the mixing cycle at iteration 2 fails, the retained
vector is the initial coefficient vector, and the coefficient vector used
to build the candidate of that completed cycle sums to -1, not 1. -/
theorem C4_cex :
    fullIter Pbase prBase 2
  ∧ 2 % (1+2) = 1+1
  ∧ (runTrace Pbase prBase 3).c = (runTrace Pbase prBase 2).c
  ∧ (runTrace Pbase prBase 3).c = initC 1
  ∧ (∑ q : Fin 2, (runTrace Pbase prBase 3).c q) = -1 := by
  with_unfolding_all decide

/-- Claim C5, amended.  The solver computes the Lipschitz scalar L itself,
inside solver_logreg, from the design matrix: L = norm2(X) ^ 2 / 4 + rho
(lines 87-90), and the plain step uses exactly this internally computed L
as inverse step size; L is not an argument of the solver. -/
theorem C5_Lval (P : Params m n k) (pr : Prims) :
    Lval P pr = pr.nrm2 P.X ^ 2 / 4 + P.rho
  ∧ ∀ (w g : Vec n) (i : Fin n), plainW P pr w g i = w i - 1 / Lval P pr * g i :=
  ⟨rfl, fun _ _ _ => rfl⟩

/-- Claim C5 as stated is false on the code: two parameter bundles that
differ only in the design matrix give different internally computed L, so
the core does compute L from the design matrix rather than accepting it
as a precomputed input (no L argument exists in the signature). -/
theorem C5_cex :
    Lval Pbase prBase = 1
  ∧ Lval Pb4 prBase = 4
  ∧ Pb4.rho = Pbase.rho
  ∧ Pb4.y = Pbase.y
  ∧ Pb4.C0 = Pbase.C0 := by
  with_unfolding_all decide

/-- Claim C6.  At a mixing event with C0 configured and adaptive_C
enabled: the candidate radius is C0 * (norm_grad / L) ^ (-0.49) * (it / K)
floored at C0; the radius actually used by the constrained solve is the
candidate when the previous solve ended on the boundary and the retained
C_prev otherwise; the stored C_prev after the event equals that used
radius (so a boundary-ending previous solve adopts and stores the
candidate); and the boundary flag is updated only by a successful FW
call. -/
theorem C6_radius (P : Params m n k) (pr : Prims) (it : ℕ)
    (hit : it < P.maxIter) (hf : fullIter P pr it) (ha : P.useAcc = true)
    (hm : it % (k+2) = k+1) (c0 : ℚ) (hC : P.C0 = some c0)
    (had : P.adaptiveC = true) :
    candRadius P pr c0 (pr.nrm (preGrad P pr it)) it
      = max (c0 * pr.rpow (pr.nrm (preGrad P pr it) / Lval P pr) (-(49/100))
              * (it : ℚ) / ((k : ℚ) + 1)) c0
  ∧ radiusAt P pr it
      = (if (runTrace P pr it).border
         then candRadius P pr c0 (pr.nrm (preGrad P pr it)) it
         else (runTrace P pr it).Cprev)
  ∧ (runTrace P pr (it+1)).Cprev = radiusAt P pr it
  ∧ (runTrace P pr (it+1)).border
      = (match fwCallAt P pr it with
         | some r => r.2.2
         | none => (runTrace P pr it).border) := by
  refine ⟨?_, ?_, ?_, ?_⟩
  · unfold candRadius
    rw [if_pos had]
  · unfold radiusAt
    rw [hC]
  · rw [run_mix_Cprev P pr it hf ha hm, coeffAt_some P pr it c0 hC]
    cases hFW : fwCallAt P pr it <;> rfl
  · rw [run_mix_border P pr it hf ha hm, coeffAt_some P pr it c0 hC]
    cases hFW : fwCallAt P pr it <;> rfl

/-- Claim C6, witness at the concrete adaptive constrained run: the stored
radius after the event is the used radius, whose value is the adaptive
candidate 20 = max(10 * 2 * 2/2, 10). -/
theorem C6_radius_w :
    (runTrace Pad prFw 3).Cprev = radiusAt Pad prFw 2
  ∧ radiusAt Pad prFw 2 = 20 :=
  ⟨(C6_radius Pad prFw 2 (by with_unfolding_all decide) (by with_unfolding_all decide) (by with_unfolding_all decide) (by with_unfolding_all decide)
      10 (by with_unfolding_all decide) (by with_unfolding_all decide)).2.2.1,
   by with_unfolding_all decide⟩

/-- Claim C7.  After N = it+1 pushes with it a mixing iteration (so
N is at least K+1 and N mod (K+1) = 0), the buffer snapshot used to build
the residual matrix holds, in slot order, exactly the K+1 most recently
pushed plain iterates in temporal order (slot q is the push of iteration
it-K+q), and residual column q is the difference of the two consecutive
pushes. -/
theorem C7_snapshot (P : Params m n k) (pr : Prims) (it : ℕ)
    (hit : it < P.maxIter) (h : ∀ l, l ≤ it → fullIter P pr l)
    (ha : P.useAcc = true) (hm : it % (k+2) = k+1) :
    (∀ (q : Fin (k+2)) (i : Fin n),
       (runTrace P pr (it+1)).lastKw i q = plainAt P pr (it - (k+1) + (q : ℕ)) i)
  ∧ (∀ (q : Fin (k+1)) (i : Fin n),
       residAt P pr it i q
         = plainAt P pr (it - (k+1) + ((q : ℕ)+1)) i
           - plainAt P pr (it - (k+1) + (q : ℕ)) i) := by
  have hs := snapshot_slots P pr it h ha hm
  refine ⟨hs, ?_⟩
  intro q i
  have hb : bufAt P pr it = (runTrace P pr (it+1)).lastKw :=
    (run_buf P pr it (h it le_rfl) ha).symm
  unfold residAt residOf
  rw [hb, hs q.succ i, hs q.castSucc i]
  simp [Fin.val_succ, Fin.coe_castSucc]

/-- Claim C7, witness at the concrete base run: the snapshot of the event
at iteration 2 holds the pushes of iterations 0, 1, 2 in slot order. -/
theorem C7_snapshot_w :
    (runTrace Pbase prBase 3).lastKw 0 0 = plainAt Pbase prBase 0 0
  ∧ (runTrace Pbase prBase 3).lastKw 0 1 = plainAt Pbase prBase 1 0
  ∧ (runTrace Pbase prBase 3).lastKw 0 2 = plainAt Pbase prBase 2 0 :=
  ⟨(C7_snapshot Pbase prBase 2 (by with_unfolding_all decide)
      (by with_unfolding_all decide) (by with_unfolding_all decide)
      (by with_unfolding_all decide)).1 0 0,
   (C7_snapshot Pbase prBase 2 (by with_unfolding_all decide)
      (by with_unfolding_all decide) (by with_unfolding_all decide)
      (by with_unfolding_all decide)).1 1 0,
   (C7_snapshot Pbase prBase 2 (by with_unfolding_all decide)
      (by with_unfolding_all decide) (by with_unfolding_all decide)
      (by with_unfolding_all decide)).1 2 0⟩

/-- Claim C8.  At a mixing event with no radius bound configured, when
np.linalg.solve succeeds on the (regularized) Gram matrix G with the ones
vector and its result z indeed solves G z = 1, the coefficient vector
after the event is z normalized by its sum: c = z / sum(z). -/
theorem C8_unconstrained (P : Params m n k) (pr : Prims) (it : ℕ)
    (hit : it < P.maxIter) (hf : fullIter P pr it) (ha : P.useAcc = true)
    (hm : it % (k+2) = k+1) (hC : P.C0 = none)
    (z : Vec (k+1)) (hz : lsCallAt P pr it = some z)
    (hsolve : matVec (gramAt P pr it) z = onesV k) :
    matVec (gramAt P pr it) z = onesV k
  ∧ (runTrace P pr (it+1)).c = fun q => z q / (∑ q2 : Fin (k+1), z q2) := by
  refine ⟨hsolve, ?_⟩
  rw [run_mix_c P pr it hf ha hm, coeffAt_none P pr it hC, hz]

/-- Claim C8, witness at the K = 1 run: G = [[1/9]], z = [9] solves
G z = 1, and the coefficient vector after the event is [9/9] = [1]. -/
theorem C8_unconstrained_w :
    matVec (gramAt Pone prLs 1) (fun _ => 9) = onesV 0
  ∧ (runTrace Pone prLs 2).c = fun _ => (9 : ℚ) / (∑ _q2 : Fin 1, (9 : ℚ)) :=
  C8_unconstrained Pone prLs 1 (by with_unfolding_all decide) (by with_unfolding_all decide) (by with_unfolding_all decide) (by with_unfolding_all decide)
    (by with_unfolding_all decide) (fun _ => 9) (by with_unfolding_all decide) (by with_unfolding_all decide)

/-- Claim C9, amended.  When a regularization amount is configured the
Gram matrix is replaced by G + reg * norm2(G) * I before solving; since
the replacement happens before the branch on C0 (lines 126-128 precede
line 129), the regularized matrix is consumed by BOTH the unconstrained
solve and the constrained Frank-Wolfe call, not only by the unconstrained
branch. -/
theorem C9_reg (P : Params m n k) (pr : Prims) (it : ℕ)
    (hit : it < P.maxIter) (hf : fullIter P pr it) (ha : P.useAcc = true)
    (hm : it % (k+2) = k+1) (reg : ℚ) (hreg : P.regAmount = some reg) :
    gramAt P pr it
      = (fun a b => gramRaw (residAt P pr it) a b
          + reg * pr.nrm2 (gramRaw (residAt P pr it)) * (if a = b then 1 else 0))
  ∧ fwCallAt P pr it
      = pr.FW (gramAt P pr it) (ctriv k)
          (1 / 10 ^ 12 * pr.nrm (fun i => residAt P pr it i 0))
          (radiusAt P pr it) 5000
  ∧ lsCallAt P pr it = pr.lsolve (gramAt P pr it) (onesV k)
  ∧ (runTrace P pr (it+1)).c = (coeffAt P pr it).1 := by
  refine ⟨?_, rfl, rfl, run_mix_c P pr it hf ha hm⟩
  unfold gramAt gramOf
  rw [hreg]

/-- Claim C9, witness at the concrete regularized constrained run. -/
theorem C9_reg_w :
    (runTrace Prg prEcho 2).c = (coeffAt Prg prEcho 1).1
  ∧ gramAt Prg prEcho 1 0 0 = 2/9 :=
  ⟨(C9_reg Prg prEcho 1 (by with_unfolding_all decide) (by with_unfolding_all decide)
      (by with_unfolding_all decide) (by with_unfolding_all decide)
      1 (by with_unfolding_all decide)).2.2.2,
   by with_unfolding_all decide⟩

/-- Claim C9 as stated is false on the code: in the concrete constrained
run with regularization, the FW solver (instantiated to echo the top-left
entry of the matrix it receives) reports the REGULARIZED Gram entry, which
differs from the raw R.T @ R entry, so the Tikhonov term does reach the
constrained Frank-Wolfe path. -/
theorem C9_cex :
    (runTrace Prg prEcho 2).c 0 = gramAt Prg prEcho 1 0 0
  ∧ gramAt Prg prEcho 1 0 0 ≠ gramRaw (residAt Prg prEcho 1) 0 0
  ∧ Prg.C0 = some 10 := by
  with_unfolding_all decide

/-- Claim C10.  At the end of every loop iteration the cached prediction
vector Xw equals X @ w for the current weight vector: the plain step
updates w and Xw together (lines 116-117) and an accepted mixing event
replaces them together by w_acc and X @ w_acc (lines 159-160). -/
theorem C10_cache (P : Params m n k) (pr : Prims) :
    ∀ N, (runTrace P pr N).Xw = matVec P.X (runTrace P pr N).w := by
  intro N
  induction N with
  | zero =>
      show (initState P).Xw = matVec P.X (initState P).w
      funext i
      simp [initState, matVec]
  | succ N ih =>
      show (step P pr N (runTrace P pr N)).Xw
        = matVec P.X (step P pr N (runTrace P pr N)).w
      unfold step
      by_cases h1 : (runTrace P pr N).stopped = true
      · rw [if_pos h1]
        exact ih
      · rw [if_neg h1]
        by_cases h2 : P.maxTime < pr.elapsed N
        · rw [if_pos h2]
          exact ih
        · rw [if_neg h2]
          unfold stepBody
          by_cases h3 : N % P.fGrad = 0
          · rw [if_pos h3]
            by_cases h4 : pr.nrm (gradOf P pr (runTrace P pr N).w
                (runTrace P pr N).Xw) < P.tol
            · rw [if_pos h4]
              exact ih
            · rw [if_neg h4]
              exact stepCore_cache P pr N _ _
          · rw [if_neg h3]
            exact stepCore_cache P pr N _ _

end CAA
